import Mathlib

/-!
Verification of the annual-daylight pipeline recipe
(`src/pollination/annual_daylight/entry.py`) against its specification.

The recipe file itself is declarative: it declares DAG inputs with their
defaults and validation specs, three tasks with their `needs` edges and
templated sub-paths, and the named outputs.  Those literals are embedded
directly from the source below.  The orchestration behaviour the
specification describes (the sensor-grid redistribution algorithm, the
fan-out scheduler, the aggregator merge, and the stage state machine) is
not part of this repository's source tree; those components are modelled
from the specification text, as marked in each doc comment.
-/

/-- A WorkItem of the fan-out scheduler: one sensor grid, with an
identifier and a sensor (unit) count. -/
structure WorkItem where
  id : String
  count : Nat
deriving DecidableEq, Repr

/-- Total unit count carried by a group of WorkItems. -/
def loadOf (g : List WorkItem) : Nat :=
  (g.map WorkItem.count).sum

/-- Total unit count of a WorkItem sequence. -/
def totalCount (items : List WorkItem) : Nat :=
  (items.map WorkItem.count).sum

/-- Modelled from the spec (§4.2, greedy LPT assignment): place one
WorkItem into the first currently least-loaded group.  The chosen group
is the first group whose load is no larger than the load of every later
group. -/
def insertLeast (x : WorkItem) : List (List WorkItem) → List (List WorkItem)
  | [] => [[x]]
  | g :: rest =>
      if rest.all (fun h => loadOf g ≤ loadOf h) then (g ++ [x]) :: rest
      else g :: insertLeast x rest

/-- Modelled from the spec (§4.2, worker-count reduction): starting from a
candidate worker count `w`, reduce `w` until `total / w ≥ minCount` or
`w = 1`. -/
def reduceW (total minCount : Nat) : Nat → Nat
  | 0 => 0
  | 1 => 1
  | n + 2 => if total / (n + 2) < minCount then reduceW total minCount (n + 1) else n + 2

/-- Modelled from the spec (§4.2): sort WorkItems by descending count
(stable, therefore deterministic). -/
def sortDesc (items : List WorkItem) : List WorkItem :=
  List.insertionSort (fun a b => b.count ≤ a.count) items

/-- Modelled from the spec (§4.2, sensor-grid redistribution): compute the
number of partitions `w = reduceW total min (min cpu n)` and distribute the
WorkItems over `w` groups by the greedy longest-processing-time-first
heuristic.  An empty sequence produces zero groups (zero instances). -/
def redistribute (items : List WorkItem) (cpu minCount : Nat) : List (List WorkItem) :=
  match items with
  | [] => []
  | _ :: _ =>
      let w := reduceW (totalCount items) minCount (min cpu items.length)
      (sortDesc items).foldl (fun gs x => insertLeast x gs) (List.replicate w [])

/-! Basic lemmas about the worker-count reduction. -/

theorem reduceW_le (total m : Nat) : ∀ w, reduceW total m w ≤ w
  | 0 => Nat.le_refl _
  | 1 => Nat.le_refl _
  | n + 2 => by
      simp only [reduceW]
      split
      · exact Nat.le_trans (reduceW_le total m (n + 1)) (by omega)
      · exact Nat.le_refl _

theorem reduceW_pos (total m : Nat) : ∀ w, 1 ≤ w → 1 ≤ reduceW total m w
  | 1, _ => Nat.le_refl _
  | n + 2, _ => by
      simp only [reduceW]
      split
      · exact reduceW_pos total m (n + 1) (by omega)
      · omega

theorem reduceW_floor (total m : Nat) :
    ∀ w, 1 ≤ w → m ≤ total / reduceW total m w ∨ reduceW total m w = 1
  | 1, _ => Or.inr rfl
  | n + 2, _ => by
      simp only [reduceW]
      split
      · exact reduceW_floor total m (n + 1) (by omega)
      · omega

/-! Basic lemmas about the greedy least-loaded insertion. -/

theorem insertLeast_ne_nil (x : WorkItem) (gs : List (List WorkItem)) :
    insertLeast x gs ≠ [] := by
  cases gs with
  | nil => simp [insertLeast]
  | cons g rest =>
      simp only [insertLeast]
      split <;> simp

theorem insertLeast_length (x : WorkItem) :
    ∀ gs : List (List WorkItem), gs ≠ [] → (insertLeast x gs).length = gs.length
  | [], h => absurd rfl h
  | g :: rest, _ => by
      simp only [insertLeast]
      split
      · rfl
      · rename_i hall
        have hrest : rest ≠ [] := by
          intro h
          subst h
          simp at hall
        simp [insertLeast_length x rest hrest]

theorem foldl_insertLeast_length (l : List WorkItem) :
    ∀ gs : List (List WorkItem), gs ≠ [] →
      (l.foldl (fun a x => insertLeast x a) gs).length = gs.length := by
  induction l with
  | nil => intro gs _; rfl
  | cons x l ih =>
      intro gs hgs
      simp only [List.foldl_cons]
      rw [ih (insertLeast x gs) (insertLeast_ne_nil x gs), insertLeast_length x gs hgs]

theorem insertLeast_flatten_perm (x : WorkItem) :
    ∀ gs : List (List WorkItem), (insertLeast x gs).flatten.Perm (x :: gs.flatten)
  | [] => by simp [insertLeast]
  | g :: rest => by
      simp only [insertLeast]
      split
      · simp only [List.flatten_cons, List.append_assoc, List.singleton_append]
        exact List.perm_middle
      · simp only [List.flatten_cons]
        exact ((insertLeast_flatten_perm x rest).append_left g).trans List.perm_middle

theorem foldl_insertLeast_flatten_perm (l : List WorkItem) :
    ∀ gs : List (List WorkItem),
      ((l.foldl (fun a x => insertLeast x a) gs).flatten).Perm (l ++ gs.flatten) := by
  induction l with
  | nil => intro gs; simp
  | cons x l ih =>
      intro gs
      simp only [List.foldl_cons, List.cons_append]
      exact ((ih (insertLeast x gs)).trans
        ((insertLeast_flatten_perm x gs).append_left l)).trans List.perm_middle

theorem flatten_replicate_nil :
    ∀ w : Nat, (List.replicate w ([] : List WorkItem)).flatten = []
  | 0 => rfl
  | n + 1 => by simp [List.replicate, flatten_replicate_nil n]

/-! Lemmas showing that, for positive unit counts, the greedy insertion
fills empty groups first, so no group stays empty once at least as many
items as groups have been placed. -/

/-- Number of empty groups. -/
def emptyCount (gs : List (List WorkItem)) : Nat :=
  gs.countP (fun g => g.isEmpty)

theorem loadOf_pos_of_ne_nil {g : List WorkItem}
    (hpos : ∀ it ∈ g, 0 < it.count) (hne : g ≠ []) : 0 < loadOf g := by
  cases g with
  | nil => exact absurd rfl hne
  | cons a l =>
      have ha : 0 < a.count := hpos a (List.mem_cons_self a l)
      simp only [loadOf, List.map_cons, List.sum_cons]
      omega

theorem loadOf_eq_zero_nil {g : List WorkItem}
    (hpos : ∀ it ∈ g, 0 < it.count) (hz : loadOf g = 0) : g = [] := by
  by_contra hne
  exact absurd hz (Nat.ne_of_gt (loadOf_pos_of_ne_nil hpos hne))

theorem insertLeast_mem_pos {x : WorkItem} (hx : 0 < x.count) :
    ∀ gs : List (List WorkItem), (∀ g ∈ gs, ∀ it ∈ g, 0 < it.count) →
      ∀ g ∈ insertLeast x gs, ∀ it ∈ g, 0 < it.count
  | [], _ => by
      intro g hg it hit
      simp only [insertLeast, List.mem_singleton] at hg
      subst hg
      simp only [List.mem_singleton] at hit
      subst hit
      exact hx
  | g0 :: rest, hpos => by
      intro g hg it hit
      simp only [insertLeast] at hg
      split at hg
      · rcases List.mem_cons.mp hg with h | h
        · subst h
          rcases List.mem_append.mp hit with h' | h'
          · exact hpos g0 (List.mem_cons_self g0 rest) it h'
          · simp only [List.mem_singleton] at h'
            subst h'
            exact hx
        · exact hpos g (List.mem_cons_of_mem g0 h) it hit
      · rcases List.mem_cons.mp hg with h | h
        · subst h
          exact hpos g (List.mem_cons_self g rest) it hit
        · exact insertLeast_mem_pos hx rest
            (fun g' hg' => hpos g' (List.mem_cons_of_mem g0 hg')) g h it hit

theorem insertLeast_emptyCount_zero {x : WorkItem} :
    ∀ gs : List (List WorkItem), emptyCount gs = 0 →
      emptyCount (insertLeast x gs) = 0
  | [], _ => by simp [insertLeast, emptyCount]
  | g0 :: rest, h => by
      simp only [emptyCount, List.countP_cons] at h ⊢
      simp only [insertLeast]
      split
      · simp only [List.countP_cons]
        have : (g0 ++ [x]).isEmpty = false := by
          simp [List.isEmpty_iff]
        simp only [this, Bool.false_eq_true, if_false]
        omega
      · simp only [List.countP_cons]
        have hrest : emptyCount rest = 0 := by
          simp only [emptyCount]; omega
        have := insertLeast_emptyCount_zero (x := x) rest hrest
        simp only [emptyCount] at this
        omega

theorem insertLeast_emptyCount_succ {x : WorkItem} :
    ∀ (gs : List (List WorkItem)) (k : Nat),
      (∀ g ∈ gs, ∀ it ∈ g, 0 < it.count) →
      emptyCount gs = k + 1 → emptyCount (insertLeast x gs) = k
  | [], k, _, h => by simp [emptyCount] at h
  | g0 :: rest, k, hpos, h => by
      simp only [emptyCount, List.countP_cons] at h
      simp only [insertLeast]
      split
      · rename_i hall
        -- the chosen first group must be empty: some group is empty, and
        -- the first group's load is minimal, hence zero.
        have hg0 : g0 = [] := by
          by_cases hg0e : g0 = []
          · exact hg0e
          · exfalso
            have hpos0 : 0 < loadOf g0 :=
              loadOf_pos_of_ne_nil (hpos g0 (List.mem_cons_self g0 rest)) hg0e
            -- then every group in rest has positive load, so none is empty
            have hrest0 : emptyCount rest = 0 := by
              rw [emptyCount, List.countP_eq_zero]
              intro g hg
              have hle := (List.all_eq_true.mp hall) g hg
              simp only [decide_eq_true_eq] at hle
              have : g ≠ [] := by
                intro hgnil
                subst hgnil
                rw [show loadOf ([] : List WorkItem) = 0 from rfl] at hle
                omega
              simp [List.isEmpty_iff, this]
            have : (g0.isEmpty : Bool) = false := by simp [List.isEmpty_iff, hg0e]
            simp only [this, Bool.false_eq_true, if_false] at h
            simp only [emptyCount] at hrest0
            omega
        subst hg0
        have h1 : List.countP (fun g => g.isEmpty) rest + 1 = k + 1 := by
          simpa using h
        have h2 : emptyCount (([] ++ [x]) :: rest) =
            List.countP (fun g => g.isEmpty) rest := by
          simp [emptyCount, List.countP_cons]
        omega
      · rename_i hall
        -- first group is not least-loaded, hence non-empty; recurse
        have hg0ne : g0 ≠ [] := by
          intro hgnil
          subst hgnil
          apply hall
          rw [List.all_eq_true]
          intro g _
          simp [loadOf]
        have hfalse : (g0.isEmpty : Bool) = false := by simp [List.isEmpty_iff, hg0ne]
        simp only [hfalse, Bool.false_eq_true, if_false] at h
        have hrest : emptyCount rest = k + 1 := by
          simp only [emptyCount]; omega
        have := insertLeast_emptyCount_succ (x := x) rest k
          (fun g' hg' => hpos g' (List.mem_cons_of_mem g0 hg')) hrest
        simp only [emptyCount, List.countP_cons, hfalse, Bool.false_eq_true, if_false]
          at this ⊢
        omega

theorem foldl_insertLeast_emptyCount :
    ∀ (l : List WorkItem) (gs : List (List WorkItem)),
      (∀ it ∈ l, 0 < it.count) →
      (∀ g ∈ gs, ∀ it ∈ g, 0 < it.count) →
      emptyCount gs ≤ l.length →
      emptyCount (l.foldl (fun a x => insertLeast x a) gs) = 0
  | [], gs, _, _, hle => by
      simp only [List.length_nil, Nat.le_zero] at hle
      simpa using hle
  | x :: l, gs, hl, hgs, hle => by
      simp only [List.foldl_cons]
      have hx : 0 < x.count := hl x (List.mem_cons_self x l)
      have hl' : ∀ it ∈ l, 0 < it.count :=
        fun it hit => hl it (List.mem_cons_of_mem x hit)
      have hgs' := insertLeast_mem_pos hx gs hgs
      cases hk : emptyCount gs with
      | zero =>
          have h0 := insertLeast_emptyCount_zero (x := x) gs hk
          exact foldl_insertLeast_emptyCount l _ hl' hgs' (by omega)
      | succ k =>
          have hstep := insertLeast_emptyCount_succ (x := x) gs k hgs hk
          have : k ≤ l.length := by
            simp only [List.length_cons] at hle
            omega
          exact foldl_insertLeast_emptyCount l _ hl' hgs' (by omega)

theorem emptyCount_replicate (w : Nat) :
    emptyCount (List.replicate w ([] : List WorkItem)) = w := by
  induction w with
  | zero => rfl
  | succ n ih =>
      simp only [emptyCount, List.replicate, List.countP_cons] at ih ⊢
      simp [ih]

theorem redistribute_length (items : List WorkItem) (cpu m : Nat)
    (hne : items ≠ []) (hcpu : 1 ≤ cpu) :
    (redistribute items cpu m).length =
      reduceW (totalCount items) m (min cpu items.length) := by
  cases items with
  | nil => exact absurd rfl hne
  | cons a l =>
      show ((sortDesc (a :: l)).foldl (fun gs x => insertLeast x gs)
        (List.replicate (reduceW (totalCount (a :: l)) m (min cpu (a :: l).length)) [])).length
        = reduceW (totalCount (a :: l)) m (min cpu (a :: l).length)
      have hw : 1 ≤ reduceW (totalCount (a :: l)) m (min cpu (a :: l).length) := by
        apply reduceW_pos
        simp only [List.length_cons]
        omega
      have hrep : List.replicate (reduceW (totalCount (a :: l)) m (min cpu (a :: l).length))
          ([] : List WorkItem) ≠ [] := by
        intro hc
        have := congrArg List.length hc
        simp only [List.length_replicate, List.length_nil] at this
        omega
      rw [foldl_insertLeast_length _ _ hrep, List.length_replicate]

theorem redistribute_flatten_perm (items : List WorkItem) (cpu m : Nat) :
    ((redistribute items cpu m).flatten).Perm items := by
  cases items with
  | nil => simp [redistribute]
  | cons a l =>
      show (((sortDesc (a :: l)).foldl (fun gs x => insertLeast x gs)
        (List.replicate (reduceW (totalCount (a :: l)) m (min cpu (a :: l).length)) [])).flatten).Perm
        (a :: l)
      have h1 := foldl_insertLeast_flatten_perm (sortDesc (a :: l))
        (List.replicate (reduceW (totalCount (a :: l)) m (min cpu (a :: l).length)) [])
      rw [flatten_replicate_nil, List.append_nil] at h1
      exact h1.trans (List.perm_insertionSort _ _)

theorem redistribute_groups_ne_nil (items : List WorkItem) (cpu m : Nat)
    (hpos : ∀ it ∈ items, 0 < it.count) :
    ∀ g ∈ redistribute items cpu m, g ≠ [] := by
  cases items with
  | nil => intro g hg; simp [redistribute] at hg
  | cons a l =>
      intro g hg
      have hS : ∀ it ∈ sortDesc (a :: l), 0 < it.count := by
        intro it hit
        exact hpos it ((List.perm_insertionSort _ _).mem_iff.mp hit)
      have hlen : (sortDesc (a :: l)).length = (a :: l).length :=
        (List.perm_insertionSort _ _).length_eq
      have hle : emptyCount (List.replicate
          (reduceW (totalCount (a :: l)) m (min cpu (a :: l).length)) []) ≤
          (sortDesc (a :: l)).length := by
        rw [emptyCount_replicate, hlen]
        exact Nat.le_trans (reduceW_le _ _ _) (Nat.min_le_right _ _)
      have h0 := foldl_insertLeast_emptyCount (sortDesc (a :: l))
        (List.replicate (reduceW (totalCount (a :: l)) m (min cpu (a :: l).length)) [])
        hS (by intro g' hg'; rw [List.eq_of_mem_replicate hg']; intro it hit; simp at hit)
        hle
      rw [emptyCount, List.countP_eq_zero] at h0
      have := h0 g hg
      simpa [List.isEmpty_iff] using this

/-- C1 (counterexample): on the WorkItem sequence with counts 1000 and 1,
`cpu_count = 2` and `min_sensor_count = 500`, the redistribution keeps
`w = 2` (since `1001 / 2 = 500 ≥ 500`), yet the greedy assignment yields
the groups `{1000}` and `{1}`, and the second group's total unit count `1`
is below `min_sensor_count` although `w ≠ 1`.  This refutes the claimed
per-group floor. -/
theorem spec_C1_counterexample :
    (redistribute [⟨"a", 1000⟩, ⟨"b", 1⟩] 2 500).length = 2 ∧
    (∃ g ∈ redistribute [⟨"a", 1000⟩, ⟨"b", 1⟩] 2 500, loadOf g < 500) := by
  decide

/-- C1 (amended): for every WorkItem sequence with `n ≥ 1`, every
`cpu_count ≥ 1` and every `min_sensor_count ≥ 1`, the partition count `w`
satisfies `1 ≤ w ≤ min(cpu_count, n)`, and the average partition size
`total / w` is at least `min_sensor_count` unless `w = 1` (the floor is
guaranteed for the average partition size, not for each group's own
total). -/
theorem spec_C1 (items : List WorkItem) (cpu m : Nat)
    (hne : items ≠ []) (hcpu : 1 ≤ cpu) (hm : 1 ≤ m) :
    1 ≤ (redistribute items cpu m).length ∧
    (redistribute items cpu m).length ≤ min cpu items.length ∧
    (m ≤ totalCount items / (redistribute items cpu m).length ∨
      (redistribute items cpu m).length = 1) := by
  have hlen := redistribute_length items cpu m hne hcpu
  have hn : 1 ≤ items.length := by
    cases items with
    | nil => exact absurd rfl hne
    | cons a l => simp
  have hmin : 1 ≤ min cpu items.length := le_min hcpu hn
  refine ⟨?_, ?_, ?_⟩
  · rw [hlen]; exact reduceW_pos _ _ _ hmin
  · rw [hlen]; exact reduceW_le _ _ _
  · rw [hlen]; exact reduceW_floor _ _ _ hmin

theorem spec_C1_witness :
    (([⟨"g1", 200⟩, ⟨"g2", 900⟩, ⟨"g3", 50⟩] : List WorkItem) ≠ [] ∧
      (1 : Nat) ≤ 50 ∧ (1 : Nat) ≤ 500) ∧
    (1 ≤ (redistribute [⟨"g1", 200⟩, ⟨"g2", 900⟩, ⟨"g3", 50⟩] 50 500).length ∧
    (redistribute [⟨"g1", 200⟩, ⟨"g2", 900⟩, ⟨"g3", 50⟩] 50 500).length ≤
      min 50 ([⟨"g1", 200⟩, ⟨"g2", 900⟩, ⟨"g3", 50⟩] : List WorkItem).length ∧
    (500 ≤ totalCount [⟨"g1", 200⟩, ⟨"g2", 900⟩, ⟨"g3", 50⟩] /
        (redistribute [⟨"g1", 200⟩, ⟨"g2", 900⟩, ⟨"g3", 50⟩] 50 500).length ∨
      (redistribute [⟨"g1", 200⟩, ⟨"g2", 900⟩, ⟨"g3", 50⟩] 50 500).length = 1)) :=
  ⟨⟨by decide, by decide, by decide⟩,
    spec_C1 [⟨"g1", 200⟩, ⟨"g2", 900⟩, ⟨"g3", 50⟩] 50 500
      (by decide) (by decide) (by decide)⟩

/-- C2: for every WorkItem sequence with positive unit counts, the
partitioning is a complete non-overlapping cover: the concatenation of the
groups is a permutation of the input sequence (so each WorkItem, with its
identifier, appears in exactly one group, once), and every group produced
is non-empty. -/
theorem spec_C2 (items : List WorkItem) (cpu m : Nat)
    (hpos : ∀ it ∈ items, 0 < it.count) :
    ((redistribute items cpu m).flatten).Perm items ∧
    (∀ g ∈ redistribute items cpu m, g ≠ []) :=
  ⟨redistribute_flatten_perm items cpu m,
    redistribute_groups_ne_nil items cpu m hpos⟩

theorem spec_C2_witness :
    (∀ it ∈ ([⟨"a", 2⟩, ⟨"b", 3⟩] : List WorkItem), 0 < it.count) ∧
    (((redistribute [⟨"a", 2⟩, ⟨"b", 3⟩] 2 1).flatten).Perm
        ([⟨"a", 2⟩, ⟨"b", 3⟩] : List WorkItem) ∧
      (∀ g ∈ redistribute [⟨"a", 2⟩, ⟨"b", 3⟩] 2 1, g ≠ [])) :=
  ⟨by decide, spec_C2 [⟨"a", 2⟩, ⟨"b", 3⟩] 2 1 (by decide)⟩

/-- C3: on the literal scenario `cpu_count = 50`, `min_sensor_count = 500`
and three grids with counts 200, 900 and 50, the redistribution returns
`w = 2` partitions and the greedy longest-processing-time-first assignment
yields exactly the groups `{900}` and `{200, 50}`. -/
theorem spec_C3 :
    redistribute [⟨"g1", 200⟩, ⟨"g2", 900⟩, ⟨"g3", 50⟩] 50 500 =
      [[⟨"g2", 900⟩], [⟨"g1", 200⟩, ⟨"g3", 50⟩]] ∧
    (redistribute [⟨"g1", 200⟩, ⟨"g2", 900⟩, ⟨"g3", 50⟩] 50 500).length = 2 := by
  decide

/-- C4: the partitioner is deterministic: two runs on equal WorkItem
sequences with equal `cpu_count` and `min_sensor_count` parameters produce
identical group assignments.  The redistribution is a pure function of its
inputs (stable sort, first-least-loaded tie-breaking), so equal inputs give
equal outputs. -/
theorem spec_C4 (items₁ items₂ : List WorkItem) (cpu₁ cpu₂ m₁ m₂ : Nat)
    (hitems : items₁ = items₂) (hcpu : cpu₁ = cpu₂) (hm : m₁ = m₂) :
    redistribute items₁ cpu₁ m₁ = redistribute items₂ cpu₂ m₂ := by
  rw [hitems, hcpu, hm]

theorem spec_C4_witness :
    (([⟨"a", 7⟩] : List WorkItem) = [⟨"a", 7⟩] ∧ (4 : Nat) = 4 ∧ (2 : Nat) = 2) ∧
    redistribute [⟨"a", 7⟩] 4 2 = redistribute [⟨"a", 7⟩] 4 2 :=
  ⟨⟨rfl, rfl, rfl⟩, spec_C4 [⟨"a", 7⟩] [⟨"a", 7⟩] 4 4 2 2 rfl rfl rfl⟩

/-! Aggregator merge, modelled from the spec (§4.3). -/

/-- Modelled from the spec (§4.3, concatenating merge): merge per-instance
output entries, keyed by the WorkItem identifier that produced each entry;
a collision on an identifier is a fatal `MergeConflictError`. -/
def mergeOutputs (outs : List (List (String × String))) :
    Except String (List (String × String)) :=
  outs.foldlM
    (fun acc part =>
      part.foldlM
        (fun acc2 kv =>
          if acc2.any (fun e => e.1 = kv.1) then Except.error "MergeConflictError"
          else Except.ok (acc2 ++ [kv]))
        acc)
    []

/-! Stage state machine and scheduling, modelled from the spec (§4.3, §5):
stages have instances; an instance is started only when every declared
predecessor stage has fully completed; an instance failure marks it
`Failed`, cancels pending/running siblings; un-started downstream stages
are marked `upstreamFailed` (`UpstreamFailureError`) without being
attempted. -/

/-- Status of one stage instance. -/
inductive InstStatus where
  | pending
  | running
  | completed
  | failed
  | cancelled
  | upstreamFailed
deriving DecidableEq, Repr

/-- Static pipeline configuration: number of stages, instances per stage,
and the declared predecessor stages (`needs`) of each stage. -/
structure EngineCfg where
  nStages : Nat
  nInst : Nat → Nat
  needs : Nat → List Nat

/-- Engine state: the status of every instance (stage index, instance
index). -/
def SState : Type := Nat → Nat → InstStatus

/-- Initial engine state: every instance pending. -/
def initState : SState := fun _ _ => InstStatus.pending

/-- Modelled from the spec (§4.3): a stage has fully completed when all of
its instances completed (vacuously true for zero instances). -/
def stageCompleted (cfg : EngineCfg) (σ : SState) (p : Nat) : Prop :=
  ∀ j, j < cfg.nInst p → σ p j = InstStatus.completed

/-- Point update of an engine state. -/
def updInst (σ : SState) (s i : Nat) (st : InstStatus) : SState :=
  fun t j => if t = s ∧ j = i then st else σ t j

/-- Statuses of an instance hit by a sibling's failure: in-flight work is
cancelled, terminal statuses stay. -/
def cancelSibling : InstStatus → InstStatus
  | InstStatus.pending => InstStatus.cancelled
  | InstStatus.running => InstStatus.cancelled
  | st => st

/-- Modelled from the spec (§5, cancellation): effect of instance `(s, i)`
failing: it becomes `failed`, its pending/running siblings are cancelled,
other stages are untouched by this atomic step. -/
def failUpdate (σ : SState) (s i : Nat) : SState :=
  fun t j =>
    if t = s then (if j = i then InstStatus.failed else cancelSibling (σ t j))
    else σ t j

/-- Modelled from the spec (§4.3): marking a (not yet started) stage failed
because of an upstream failure. -/
def skipUpdate (σ : SState) (t : Nat) : SState :=
  fun u j => if u = t then InstStatus.upstreamFailed else σ u j

/-- Modelled from the spec (§4.3, §5): one step of the engine.  A stage
instance may start only when it is pending and every declared predecessor
stage has fully completed; a running instance may complete or fail (a
failure cancels in-flight siblings); a stage none of whose instances have
started may be marked `upstreamFailed` when a predecessor stage has a
failed, cancelled or upstream-failed instance. -/
inductive EngineStep (cfg : EngineCfg) : SState → SState → Prop where
  | start (σ : SState) (s i : Nat) :
      s < cfg.nStages → i < cfg.nInst s →
      σ s i = InstStatus.pending →
      (∀ p ∈ cfg.needs s, stageCompleted cfg σ p) →
      EngineStep cfg σ (updInst σ s i InstStatus.running)
  | finish (σ : SState) (s i : Nat) :
      i < cfg.nInst s → σ s i = InstStatus.running →
      EngineStep cfg σ (updInst σ s i InstStatus.completed)
  | fail (σ : SState) (s i : Nat) :
      i < cfg.nInst s → σ s i = InstStatus.running →
      EngineStep cfg σ (failUpdate σ s i)
  | skip (σ : SState) (t : Nat) :
      t < cfg.nStages →
      (∀ j, σ t j = InstStatus.pending) →
      (∃ p ∈ cfg.needs t, ∃ j, j < cfg.nInst p ∧
        (σ p j = InstStatus.failed ∨ σ p j = InstStatus.cancelled ∨
          σ p j = InstStatus.upstreamFailed)) →
      EngineStep cfg σ (skipUpdate σ t)

/-- Reflexive-transitive closure of engine steps. -/
inductive EngineStepStar (cfg : EngineCfg) : SState → SState → Prop where
  | refl (σ : SState) : EngineStepStar cfg σ σ
  | tail (σ₁ σ₂ σ₃ : SState) :
      EngineStepStar cfg σ₁ σ₂ → EngineStep cfg σ₂ σ₃ → EngineStepStar cfg σ₁ σ₃

/-- Transitive (possibly indirect) dependency: `Depends needs s t` means
stage `t` transitively needs stage `s`. -/
inductive Depends (needs : Nat → List Nat) : Nat → Nat → Prop where
  | base {s t : Nat} : s ∈ needs t → Depends needs s t
  | trans {s u t : Nat} : Depends needs s u → u ∈ needs t → Depends needs s t

theorem engineStepStar_trans {cfg : EngineCfg} {σ₁ σ₂ σ₃ : SState}
    (h₁ : EngineStepStar cfg σ₁ σ₂) (h₂ : EngineStepStar cfg σ₂ σ₃) :
    EngineStepStar cfg σ₁ σ₃ := by
  induction h₂ with
  | refl => exact h₁
  | tail _ _ _ hstep ih => exact EngineStepStar.tail _ _ _ ih hstep

/-- Invariant: whenever a stage `s` is not fully completed, every stage
that transitively needs `s` is still pending or has been marked
upstream-failed — it never begins execution. -/
def blockedInv (cfg : EngineCfg) (σ : SState) : Prop :=
  ∀ s t, Depends cfg.needs s t →
    (∃ i, i < cfg.nInst s ∧ σ s i ≠ InstStatus.completed) →
    ∀ j, σ t j = InstStatus.pending ∨ σ t j = InstStatus.upstreamFailed

theorem depends_completed {cfg : EngineCfg} {σ : SState} {u : Nat}
    (hinv : blockedInv cfg σ) (hpos : ∀ v, 0 < cfg.nInst v)
    (hguard : ∀ p ∈ cfg.needs u, stageCompleted cfg σ p) :
    ∀ s, Depends cfg.needs s u → stageCompleted cfg σ s := by
  intro s hdep
  cases hdep with
  | base h => exact hguard s h
  | trans h1 h2 =>
      rename_i u'
      by_contra hnc
      have hnd : ∃ i, i < cfg.nInst s ∧ σ s i ≠ InstStatus.completed := by
        unfold stageCompleted at hnc
        push_neg at hnc
        exact hnc
      have hall := hinv s u' h1 hnd
      have hc := hguard u' h2 0 (hpos u')
      rcases hall 0 with h | h <;> rw [hc] at h <;> exact InstStatus.noConfusion h

theorem blockedInv_step {cfg : EngineCfg} {σ σ' : SState}
    (hpos : ∀ v, 0 < cfg.nInst v)
    (hstep : EngineStep cfg σ σ') (hinv : blockedInv cfg σ) :
    blockedInv cfg σ' := by
  cases hstep with
  | start u k hu hk hpend hguard =>
      intro s t hdep hnd' j
      have hnd : ∃ i, i < cfg.nInst s ∧ σ s i ≠ InstStatus.completed := by
        obtain ⟨i0, hi0, hne⟩ := hnd'
        refine ⟨i0, hi0, ?_⟩
        by_cases hc : s = u ∧ i0 = k
        · rw [hc.1, hc.2, hpend]
          simp
        · intro hcomp
          apply hne
          simp only [updInst]
          rw [if_neg hc]
          exact hcomp
      by_cases hc : t = u ∧ j = k
      · exfalso
        have hcomp := depends_completed hinv hpos hguard s (hc.1 ▸ hdep)
        obtain ⟨i0, hi0, hne⟩ := hnd
        exact hne (hcomp i0 hi0)
      · have heq : updInst σ u k InstStatus.running t j = σ t j := by
          simp only [updInst]
          rw [if_neg hc]
        rw [heq]
        exact hinv s t hdep hnd j
  | finish u k hk hrun =>
      intro s t hdep hnd' j
      have hnd : ∃ i, i < cfg.nInst s ∧ σ s i ≠ InstStatus.completed := by
        obtain ⟨i0, hi0, hne⟩ := hnd'
        refine ⟨i0, hi0, ?_⟩
        by_cases hc : s = u ∧ i0 = k
        · exfalso
          apply hne
          simp only [updInst]
          rw [if_pos hc]
        · intro hcomp
          apply hne
          simp only [updInst]
          rw [if_neg hc]
          exact hcomp
      have hall := hinv s t hdep hnd
      by_cases hc : t = u ∧ j = k
      · exfalso
        have hthis := hall j
        rw [hc.1, hc.2, hrun] at hthis
        rcases hthis with h | h <;> exact InstStatus.noConfusion h
      · have heq : updInst σ u k InstStatus.completed t j = σ t j := by
          simp only [updInst]
          rw [if_neg hc]
        rw [heq]
        exact hall j
  | fail u k hk hrun =>
      intro s t hdep hnd' j
      have hnd : ∃ i, i < cfg.nInst s ∧ σ s i ≠ InstStatus.completed := by
        obtain ⟨i0, hi0, hne⟩ := hnd'
        refine ⟨i0, hi0, ?_⟩
        intro hcomp
        apply hne
        simp only [failUpdate]
        by_cases hs : s = u
        · subst hs
          by_cases hik : i0 = k
          · subst hik
            rw [hrun] at hcomp
            exact absurd hcomp (by simp)
          · rw [if_pos rfl, if_neg hik, hcomp]
            rfl
        · rw [if_neg hs]
          exact hcomp
      have hall := hinv s t hdep hnd
      by_cases ht : t = u
      · exfalso
        have hthis := hall k
        rw [ht, hrun] at hthis
        rcases hthis with h | h <;> exact InstStatus.noConfusion h
      · have heq : failUpdate σ u k t j = σ t j := by
          simp only [failUpdate]
          rw [if_neg ht]
        rw [heq]
        exact hall j
  | skip t0 ht0 hallpend hjust =>
      intro s t hdep hnd' j
      have hnd : ∃ i, i < cfg.nInst s ∧ σ s i ≠ InstStatus.completed := by
        obtain ⟨i0, hi0, hne⟩ := hnd'
        refine ⟨i0, hi0, ?_⟩
        intro hcomp
        apply hne
        simp only [skipUpdate]
        by_cases hs : s = t0
        · subst hs
          rw [hallpend i0] at hcomp
          exact absurd hcomp (by simp)
        · rw [if_neg hs]
          exact hcomp
      have hall := hinv s t hdep hnd
      by_cases ht : t = t0
      · have heq : skipUpdate σ t0 t j = InstStatus.upstreamFailed := by
          simp only [skipUpdate]
          rw [if_pos ht]
        rw [heq]
        exact Or.inr rfl
      · have heq : skipUpdate σ t0 t j = σ t j := by
          simp only [skipUpdate]
          rw [if_neg ht]
        rw [heq]
        exact hall j

theorem blockedInv_reachable {cfg : EngineCfg} {σ : SState}
    (hpos : ∀ v, 0 < cfg.nInst v)
    (hreach : EngineStepStar cfg initState σ) : blockedInv cfg σ := by
  induction hreach with
  | refl => intro s t _ _ j; exact Or.inl rfl
  | tail _ _ _ hstep ih => exact blockedInv_step hpos hstep ih

theorem failed_stable_step {cfg : EngineCfg} {σ σ' : SState} {s i : Nat}
    (hstep : EngineStep cfg σ σ') (hf : σ s i = InstStatus.failed) :
    σ' s i = InstStatus.failed := by
  cases hstep with
  | start u k hu hk hpend hguard =>
      simp only [updInst]
      by_cases hc : s = u ∧ i = k
      · exfalso
        rw [hc.1, hc.2, hpend] at hf
        exact InstStatus.noConfusion hf
      · rw [if_neg hc]
        exact hf
  | finish u k hk hrun =>
      simp only [updInst]
      by_cases hc : s = u ∧ i = k
      · exfalso
        rw [hc.1, hc.2, hrun] at hf
        exact InstStatus.noConfusion hf
      · rw [if_neg hc]
        exact hf
  | fail u k hk hrun =>
      simp only [failUpdate]
      by_cases hs : s = u
      · subst hs
        by_cases hik : i = k
        · exfalso
          rw [hik, hrun] at hf
          exact InstStatus.noConfusion hf
        · rw [if_pos rfl, if_neg hik, hf]
          rfl
      · rw [if_neg hs]
        exact hf
  | skip t0 ht0 hallpend hjust =>
      simp only [skipUpdate]
      by_cases hs : s = t0
      · exfalso
        rw [hs, hallpend i] at hf
        exact InstStatus.noConfusion hf
      · rw [if_neg hs]
        exact hf

theorem failed_stable_star {cfg : EngineCfg} {σ σ' : SState} {s i : Nat}
    (hsteps : EngineStepStar cfg σ σ') (hf : σ s i = InstStatus.failed) :
    σ' s i = InstStatus.failed := by
  induction hsteps with
  | refl => exact hf
  | tail _ _ _ hstep ih => exact failed_stable_step hstep ih

/-! The stage graph of the annual-daylight recipe, embedded from
`entry.py`: stage 0 `prepare_folder_annual_daylight` (no needs), stage 1
`annual_daylight_raytracing` (needs = [prepare_folder_annual_daylight],
lines 123-126), stage 2 `post_process_annual_daylight`
(needs = [prepare_folder_annual_daylight, annual_daylight_raytracing],
lines 153-155). -/

/-- Declared predecessors of each stage of the recipe, from the `needs`
arguments of the `task` decorators in `entry.py`. -/
def annualDaylightNeeds : Nat → List Nat :=
  fun t => if t = 1 then [0] else if t = 2 then [0, 1] else []

/-- The recipe's stage graph with a given fan-out size per stage (the
number of ray-tracing instances is only known at run time). -/
def annualDaylightCfg (nInst : Nat → Nat) : EngineCfg :=
  ⟨3, nInst, annualDaylightNeeds⟩

/-- C5: a zero-length WorkItem sequence produces zero partitions, hence
zero StageInstances; the Aggregator merge over zero instances succeeds
with an empty result (no error); and a stage with zero instances counts as
(vacuously) completed for its successors. -/
theorem spec_C5 :
    (∀ cpu m : Nat, redistribute [] cpu m = []) ∧
    mergeOutputs [] = Except.ok [] ∧
    (∀ (cfg : EngineCfg) (σ : SState) (p : Nat), cfg.nInst p = 0 →
      stageCompleted cfg σ p) := by
  refine ⟨fun cpu m => rfl, rfl, ?_⟩
  intro cfg σ p h0 j hj
  rw [h0] at hj
  exact absurd hj (Nat.not_lt_zero j)

theorem spec_C5_witness :
    ((annualDaylightCfg fun _ => 0).nInst 2 = 0) ∧
    stageCompleted (annualDaylightCfg fun _ => 0) initState 2 :=
  ⟨rfl, spec_C5.2.2 (annualDaylightCfg fun _ => 0) initState 2 rfl⟩

/-- C6: if instance `i` of stage `s` fails in a reachable state, then (a)
in the atomic failure step every other pending or running sibling instance
of `s` is cancelled, and (b) in every state reachable after the failure,
every stage `t` that transitively needs `s` never begins execution: each
of its instances is forever pending or marked upstream-failed (hence never
running and never completed). -/
theorem spec_C6 (cfg : EngineCfg) (σ₀ σ₂ : SState) (s i t : Nat)
    (hpos : ∀ v, 0 < cfg.nInst v)
    (hreach : EngineStepStar cfg initState σ₀)
    (hi : i < cfg.nInst s) (hrun : σ₀ s i = InstStatus.running)
    (hsteps : EngineStepStar cfg (failUpdate σ₀ s i) σ₂)
    (hdep : Depends cfg.needs s t) :
    (∀ j, σ₂ t j = InstStatus.pending ∨ σ₂ t j = InstStatus.upstreamFailed) ∧
    (∀ j, j ≠ i →
      (σ₀ s j = InstStatus.pending ∨ σ₀ s j = InstStatus.running) →
      failUpdate σ₀ s i s j = InstStatus.cancelled) := by
  constructor
  · have hstep : EngineStep cfg σ₀ (failUpdate σ₀ s i) :=
      EngineStep.fail σ₀ s i hi hrun
    have hreach₂ : EngineStepStar cfg initState σ₂ :=
      engineStepStar_trans (EngineStepStar.tail _ _ _ hreach hstep) hsteps
    have hf₁ : failUpdate σ₀ s i s i = InstStatus.failed := by
      simp [failUpdate]
    have hf₂ : σ₂ s i = InstStatus.failed := failed_stable_star hsteps hf₁
    have hinv := blockedInv_reachable hpos hreach₂
    exact hinv s t hdep ⟨i, hi, by rw [hf₂]; simp⟩
  · intro j hj hstat
    simp only [failUpdate, if_pos rfl, if_neg hj]
    rcases hstat with h | h <;> rw [h] <;> rfl

theorem spec_C6_witness :
    ((updInst initState 0 0 InstStatus.running) 0 0 = InstStatus.running ∧
      (0 : Nat) < (annualDaylightCfg fun _ => 2).nInst 0) ∧
    (failUpdate (updInst initState 0 0 InstStatus.running) 0 0 1 0 =
        InstStatus.pending ∨
      failUpdate (updInst initState 0 0 InstStatus.running) 0 0 1 0 =
        InstStatus.upstreamFailed) ∧
    failUpdate (updInst initState 0 0 InstStatus.running) 0 0 0 1 =
      InstStatus.cancelled := by
  have hstart : EngineStep (annualDaylightCfg fun _ => 2) initState
      (updInst initState 0 0 InstStatus.running) := by
    apply EngineStep.start initState 0 0 (by decide) (by decide) rfl
    intro p hp
    simp [annualDaylightCfg, annualDaylightNeeds] at hp
  have hmain := spec_C6 (annualDaylightCfg fun _ => 2)
    (updInst initState 0 0 InstStatus.running)
    (failUpdate (updInst initState 0 0 InstStatus.running) 0 0)
    0 0 1
    (fun _ => Nat.succ_pos 1)
    (EngineStepStar.tail _ _ _ (EngineStepStar.refl _) hstart)
    (by decide) rfl
    (EngineStepStar.refl _)
    (Depends.base (by simp [annualDaylightCfg, annualDaylightNeeds]))
  exact ⟨⟨rfl, by decide⟩, hmain.1 0, hmain.2 1 (by decide) (Or.inl rfl)⟩

/-- C7: stage execution respects a strict stage-level barrier: in every
reachable state, a running instance of a stage implies that every stage it
transitively needs has fully completed all of its instances; in
particular, for the recipe's stage graph, a running post-processing
instance implies that the folder-preparation stage and every instance of
the fan-out ray-tracing stage have completed. -/
theorem spec_C7 :
    (∀ (cfg : EngineCfg) (σ : SState) (s i : Nat),
       (∀ v, 0 < cfg.nInst v) →
       EngineStepStar cfg initState σ →
       σ s i = InstStatus.running →
       ∀ p, Depends cfg.needs p s → stageCompleted cfg σ p) ∧
    (∀ (nInst : Nat → Nat) (σ : SState) (i : Nat),
       (∀ v, 0 < nInst v) →
       EngineStepStar (annualDaylightCfg nInst) initState σ →
       σ 2 i = InstStatus.running →
       stageCompleted (annualDaylightCfg nInst) σ 0 ∧
         stageCompleted (annualDaylightCfg nInst) σ 1) := by
  have hgen : ∀ (cfg : EngineCfg) (σ : SState) (s i : Nat),
      (∀ v, 0 < cfg.nInst v) →
      EngineStepStar cfg initState σ →
      σ s i = InstStatus.running →
      ∀ p, Depends cfg.needs p s → stageCompleted cfg σ p := by
    intro cfg σ s i hpos hreach hrun p hdep
    have hinv := blockedInv_reachable hpos hreach
    by_contra hnc
    have hnd : ∃ j, j < cfg.nInst p ∧ σ p j ≠ InstStatus.completed := by
      unfold stageCompleted at hnc
      push_neg at hnc
      exact hnc
    have := hinv p s hdep hnd i
    rcases this with h | h <;> rw [hrun] at h <;> exact InstStatus.noConfusion h
  refine ⟨hgen, ?_⟩
  intro nInst σ i hpos hreach hrun
  constructor
  · exact hgen (annualDaylightCfg nInst) σ 2 i hpos hreach hrun 0
      (Depends.base (by simp [annualDaylightCfg, annualDaylightNeeds]))
  · exact hgen (annualDaylightCfg nInst) σ 2 i hpos hreach hrun 1
      (Depends.base (by simp [annualDaylightCfg, annualDaylightNeeds]))

/-- Concrete engine state used to exercise the stage barrier: folder
preparation and ray tracing completed, post-processing running. -/
def c7State : SState :=
  updInst
    (updInst
      (updInst
        (updInst
          (updInst initState 0 0 InstStatus.running)
          0 0 InstStatus.completed)
        1 0 InstStatus.running)
      1 0 InstStatus.completed)
    2 0 InstStatus.running

theorem spec_C7_witness :
    (∀ v, 0 < (fun _ : Nat => 1) v) ∧
    c7State 2 0 = InstStatus.running ∧
    (stageCompleted (annualDaylightCfg fun _ => 1) c7State 0 ∧
      stageCompleted (annualDaylightCfg fun _ => 1) c7State 1) := by
  have h1 : EngineStep (annualDaylightCfg fun _ => 1) initState
      (updInst initState 0 0 InstStatus.running) := by
    apply EngineStep.start initState 0 0 (by decide) (by decide) rfl
    intro p hp
    simp [annualDaylightCfg, annualDaylightNeeds] at hp
  have h2 : EngineStep (annualDaylightCfg fun _ => 1)
      (updInst initState 0 0 InstStatus.running)
      (updInst (updInst initState 0 0 InstStatus.running) 0 0 InstStatus.completed) :=
    EngineStep.finish _ 0 0 (by decide) rfl
  have h3 : EngineStep (annualDaylightCfg fun _ => 1)
      (updInst (updInst initState 0 0 InstStatus.running) 0 0 InstStatus.completed)
      (updInst (updInst (updInst initState 0 0 InstStatus.running) 0 0
        InstStatus.completed) 1 0 InstStatus.running) := by
    apply EngineStep.start _ 1 0 (by decide) (by decide) rfl
    intro p hp
    simp only [annualDaylightCfg, annualDaylightNeeds] at hp
    norm_num at hp
    subst hp
    intro j hj
    have hj0 : j = 0 := Nat.lt_one_iff.mp hj
    subst hj0
    rfl
  have h4 : EngineStep (annualDaylightCfg fun _ => 1)
      (updInst (updInst (updInst initState 0 0 InstStatus.running) 0 0
        InstStatus.completed) 1 0 InstStatus.running)
      (updInst (updInst (updInst (updInst initState 0 0 InstStatus.running) 0 0
        InstStatus.completed) 1 0 InstStatus.running) 1 0 InstStatus.completed) :=
    EngineStep.finish _ 1 0 (by decide) rfl
  have h5 : EngineStep (annualDaylightCfg fun _ => 1)
      (updInst (updInst (updInst (updInst initState 0 0 InstStatus.running) 0 0
        InstStatus.completed) 1 0 InstStatus.running) 1 0 InstStatus.completed)
      c7State := by
    apply EngineStep.start _ 2 0 (by decide) (by decide) rfl
    intro p hp
    simp only [annualDaylightCfg, annualDaylightNeeds] at hp
    norm_num at hp
    rcases hp with hp | hp <;> subst hp <;> intro j hj <;>
      have hj0 : j = 0 := Nat.lt_one_iff.mp hj <;> subst hj0 <;> rfl
  have hreach : EngineStepStar (annualDaylightCfg fun _ => 1) initState c7State :=
    EngineStepStar.tail _ _ _
      (EngineStepStar.tail _ _ _
        (EngineStepStar.tail _ _ _
          (EngineStepStar.tail _ _ _
            (EngineStepStar.tail _ _ _ (EngineStepStar.refl _) h1)
            h2)
          h3)
        h4)
      h5
  exact ⟨fun _ => Nat.one_pos, rfl,
    spec_C7.2 (fun _ => 1) c7State 0 (fun _ => Nat.one_pos) hreach rfl⟩

/-! Threshold-string handling.  The default threshold string is embedded
from `entry.py` (line 96); the recognition of flag/value pairs is modelled
from the spec (§6). -/

/-- Default of the `thresholds` input of `AnnualDaylightEntryPoint`
(`entry.py`, line 96). -/
def thresholds_default : String := "-t 300 -lt 100 -ut 3000"

/-- Effective thresholds for daylight-autonomy and useful-daylight-
illuminance post-processing. -/
structure Thresholds where
  t : Nat
  lt : Nat
  ut : Nat
deriving DecidableEq, Repr

/-- Modelled from the spec (§6): interpret the decimal digits of a value
token. -/
def digitsToNat (cs : List Char) : Nat :=
  cs.foldl (fun n c => n * 10 + (c.toNat - 48)) 0

/-- Modelled from the spec (§6): split a character sequence into
space-separated tokens. -/
def tokenizeAux (cur : List Char) : List Char → List String
  | [] => if cur.isEmpty then [] else [String.mk cur.reverse]
  | c :: rest =>
      if c = ' ' then
        if cur.isEmpty then tokenizeAux [] rest
        else String.mk cur.reverse :: tokenizeAux [] rest
      else tokenizeAux (c :: cur) rest

/-- Tokens of a threshold-configuration string. -/
def tokenize (cs : List Char) : List String :=
  tokenizeAux [] cs

/-- Consecutive token pairs (flag, decimal value). -/
def toPairs : List String → List (String × Nat)
  | f :: v :: rest => (f, digitsToNat v.data) :: toPairs rest
  | _ => []

/-- Modelled from the spec (§6): apply one recognized flag (`-t`, `-lt`,
`-ut`) to the current thresholds; unknown flags are ignored. -/
def applyFlag (th : Thresholds) (flag : String) (v : Nat) : Thresholds :=
  if flag = "-t" then { th with t := v }
  else if flag = "-lt" then { th with lt := v }
  else if flag = "-ut" then { th with ut := v }
  else th

/-- Apply a list of flag/value pairs in order. -/
def applyAll (th : Thresholds) (ps : List (String × Nat)) : Thresholds :=
  ps.foldl (fun a p => applyFlag a p.1 p.2) th

/-- Modelled from the spec (§6): the effective thresholds of a
threshold-configuration string — defaults `t = 300`, `lt = 100`,
`ut = 3000`, overridden by whichever flags the string supplies, in any
order and any subset. -/
def effectiveThresholds (s : String) : Thresholds :=
  applyAll ⟨300, 100, 3000⟩ (toPairs (tokenize s.data))

theorem applyFlag_comm (th : Thresholds) (f₁ f₂ : String) (v₁ v₂ : Nat)
    (hne : f₁ ≠ f₂) :
    applyFlag (applyFlag th f₁ v₁) f₂ v₂ = applyFlag (applyFlag th f₂ v₂) f₁ v₁ := by
  unfold applyFlag
  split_ifs <;> simp_all

theorem applyAll_perm (ps qs : List (String × Nat)) (th : Thresholds)
    (hperm : ps.Perm qs) (hnd : (ps.map Prod.fst).Nodup) :
    applyAll th ps = applyAll th qs := by
  unfold applyAll
  apply hperm.foldl_eq'
  intro x hx y hy z
  by_cases hxy : x = y
  · rw [hxy]
  · have hf : x.1 ≠ y.1 := by
      intro hfst
      exact hxy (List.inj_on_of_nodup_map hnd hx hy hfst)
    exact applyFlag_comm z x.1 y.1 x.2 y.2 hf

/-- C8: the `thresholds` input defaults to the exact string
`-t 300 -lt 100 -ut 3000` (whose effective thresholds are
`t = 300, lt = 100, ut = 3000`); the string `-ut 2000` alone yields
`t = 300` (default), `lt = 100` (default), `ut = 2000` (overridden); and
flag/value pairs with distinct flags may appear in any order (and any
subset) without changing the effective thresholds. -/
theorem spec_C8 :
    thresholds_default = "-t 300 -lt 100 -ut 3000" ∧
    effectiveThresholds thresholds_default = ⟨300, 100, 3000⟩ ∧
    effectiveThresholds "-ut 2000" = ⟨300, 100, 2000⟩ ∧
    (∀ (ps qs : List (String × Nat)) (th : Thresholds),
      ps.Perm qs → (ps.map Prod.fst).Nodup → applyAll th ps = applyAll th qs) :=
  ⟨rfl, by decide, by decide, applyAll_perm⟩

theorem spec_C8_witness :
    (([("-t", 250), ("-ut", 2000)] : List (String × Nat)).Perm
        [("-ut", 2000), ("-t", 250)] ∧
      (([("-t", 250), ("-ut", 2000)] : List (String × Nat)).map Prod.fst).Nodup) ∧
    applyAll ⟨300, 100, 3000⟩ [("-t", 250), ("-ut", 2000)] =
      applyAll ⟨300, 100, 3000⟩ [("-ut", 2000), ("-t", 250)] :=
  ⟨⟨List.Perm.swap ("-ut", 2000) ("-t", 250) [], by decide⟩,
    spec_C8.2.2.2 [("-t", 250), ("-ut", 2000)] [("-ut", 2000), ("-t", 250)]
      ⟨300, 100, 3000⟩ (List.Perm.swap ("-ut", 2000) ("-t", 250) []) (by decide)⟩

/-! Named outputs of `AnnualDaylightEntryPoint`, embedded from `entry.py`
lines 174-208 as (output name, source path) pairs, in declaration
order. -/

/-- The named outputs declared by the entry point (`entry.py`,
lines 174-208). -/
def entryPointOutputs : List (String × String) :=
  [("visualization", "visualization.vsf"),
   ("metrics", "metrics"),
   ("da", "metrics/da"),
   ("cda", "metrics/cda"),
   ("udi", "metrics/udi"),
   ("udi_lower", "metrics/udi_lower"),
   ("udi_upper", "metrics/udi_upper")]

/-- C9 (counterexample): the entry point does not expose *exactly* the six
named outputs the claim lists (five metric folders plus the visualization
file): it declares seven named outputs — the aggregate `metrics` folder is
also exposed, and it is not among the six claimed names. -/
theorem spec_C9_counterexample :
    ("metrics", "metrics") ∈ entryPointOutputs ∧
    ("metrics" ∉ ["visualization", "da", "cda", "udi", "udi_lower", "udi_upper"]) ∧
    entryPointOutputs.length ≠ 6 := by
  decide

/-- C9 (amended): on successful completion the pipeline exposes exactly
seven named outputs: the five independently addressable metric folders
(`da ↦ metrics/da`, `cda ↦ metrics/cda`, `udi ↦ metrics/udi`,
`udi_lower ↦ metrics/udi_lower`, `udi_upper ↦ metrics/udi_upper`), the
visualization artifact (`visualization ↦ visualization.vsf`), and the
aggregate metrics folder (`metrics ↦ metrics`). -/
theorem spec_C9 :
    entryPointOutputs =
      [("visualization", "visualization.vsf"),
       ("metrics", "metrics"),
       ("da", "metrics/da"),
       ("cda", "metrics/cda"),
       ("udi", "metrics/udi"),
       ("udi_lower", "metrics/udi_lower"),
       ("udi_upper", "metrics/udi_upper")] ∧
    entryPointOutputs.length = 7 := by
  decide

/-! The `min_sensor_count` input of `AnnualDaylightEntryPoint`, embedded
from `entry.py` lines 43-52: its declared default value and its
description text, plus the binding that hands the input to the
folder-preparation task (`entry.py` lines 100-104). -/

/-- Declared default of the `min_sensor_count` input (`entry.py`,
line 49). -/
def min_sensor_count_default : Nat := 500

/-- Description text of the `min_sensor_count` input (`entry.py`,
lines 44-49). -/
def min_sensor_count_description : String :=
  "The minimum number of sensors in each sensor grid after redistributing the sensors based on cpu_count. This value takes precedence over the cpu_count and can be used to ensure that the parallelization does not result in generating unnecessarily small sensor grids. The default value is set to 1, which means that the cpu_count is always respected."

/-- Integer inputs of the entry point with their declared defaults
(`entry.py`, lines 35-52). -/
def dagIntDefaults : String → Option Nat :=
  fun n =>
    if n = "cpu_count" then some 50
    else if n = "min_sensor_count" then some 500
    else none

/-- Resolution of an integer input at the pipeline boundary: a supplied
value wins, otherwise the declared default applies. -/
def resolveIntInput (supplied : String → Option Nat) (n : String) : Option Nat :=
  match supplied n with
  | some v => some v
  | none => dagIntDefaults n

/-- Input bindings of the `prepare_folder_annual_daylight` task
(`entry.py`, lines 100-104): each task parameter is bound to the DAG input
of the same name. -/
def prepareFolderTaskBindings : List (String × String) :=
  [("north", "north"), ("cpu_count", "cpu_count"),
   ("min_sensor_count", "min_sensor_count"), ("grid_filter", "grid_filter"),
   ("model", "model"), ("wea", "wea")]

set_option maxRecDepth 10000 in
/-- C10: when `min_sensor_count` is not supplied it resolves to 500 — the
declared default — not to 1, even though the parameter's own description
text literally contains the sentence fragment saying the default is 1; the
folder-preparation task (which performs the redistribution) is bound to
this input, so the redistribution floor receives 500 on a default
invocation. -/
theorem spec_C10 :
    min_sensor_count_default = 500 ∧
    min_sensor_count_default ≠ 1 ∧
    (∃ pre post : String,
      min_sensor_count_description =
        pre ++ "The default value is set to 1" ++ post) ∧
    ("min_sensor_count", "min_sensor_count") ∈ prepareFolderTaskBindings ∧
    resolveIntInput (fun _ => none) "min_sensor_count" = some 500 := by
  refine ⟨rfl, by decide, ?_, by decide, by decide⟩
  exact ⟨"The minimum number of sensors in each sensor grid after redistributing the sensors based on cpu_count. This value takes precedence over the cpu_count and can be used to ensure that the parallelization does not result in generating unnecessarily small sensor grids. ",
    ", which means that the cpu_count is always respected.", rfl⟩
